import Mathlib

/-!
# Verification of the `MasterScraper` queue / retry orchestrator

A shallow embedding of `master_scraper.py`: the deterministic filename
derivation (`generate_filename`), the durable queue (`initialize_queue`,
`update_queue`, `get_next_unscraped`, `count_remaining`) and the main
`run` loop with its bounded retry policy.

Modelling conventions:
* The record store (the `scholarships/` output directory) is the list of
  JSON filenames present; `filepath.exists()` is list membership.  The
  orchestrator never re-reads a record's payload, only its existence, so
  payloads are not stored.
* The queue CSV is a `List Entry`; the `is_scraped` column's
  `'True'/'False'` strings are a `Bool` field `scraped`.  Every rewrite
  of the CSV file is modelled by returning the updated list.
* `get_next_unscraped` iterates over the rows read at call start (the
  csv reader's snapshot) while `update_queue` rewrites the file; the
  scan therefore walks the snapshot while corrections accumulate in the
  working queue, exactly as in the source.
* The page extractor (`ScholarshipDetailScraper.scrape_scholarship`) is
  an external collaborator: a function from the global invocation count
  and the url to a result that is a record, `None`, or a raised
  exception.  Python's success test `data and data.get('name')` becomes
  "an `ok` record with non-empty `name`".
* The fields `calls`, `attempted` and `delays` of `RunState` are ghost
  instrumentation: they count extractor invocations, record which
  (name, url) rows were handed to the retry loop, and count the
  bottom-of-loop inter-item sleeps.  They influence nothing.
* Python's `re` character classes `\w`/`\s` are modelled at ASCII
  (alphanumerics plus underscore; the six ASCII whitespace characters),
  which is exact for ASCII inputs.
-/

/-! ## Filename derivation (`MasterScraper.generate_filename`) -/

/-- ASCII model of the regex class `\w`: word characters. -/
def pyIsWordChar (c : Char) : Bool := c.isAlphanum || c = '_'

/-- ASCII model of the regex class `\s` and of `str.strip()`'s
whitespace: space, tab, newline, carriage return, vertical tab, form
feed. -/
def pyIsSpaceChar (c : Char) : Bool :=
  c = ' ' || c = '\t' || c = '\n' || c = '\r' || c = Char.ofNat 11 || c = Char.ofNat 12

/-- The characters `re.sub(r'[^\w\s-]', '', ...)` keeps. -/
def keepChar (c : Char) : Bool := pyIsWordChar c || pyIsSpaceChar c || c = '-'

/-- Python `str.strip()`: drop whitespace from both ends. -/
def pyStrip (l : List Char) : List Char :=
  ((l.dropWhile pyIsSpaceChar).reverse.dropWhile pyIsSpaceChar).reverse

/-- Python `url.split('/')` (single-character separator): always returns
at least one (possibly empty) segment. -/
def pySplitSlash : List Char → List (List Char)
  | [] => [[]]
  | c :: rest =>
    match pySplitSlash rest with
    | h :: t => if c = '/' then [] :: h :: t else (c :: h) :: t
    | [] => [[c]]

/-- `url_parts[-1] if url_parts else 'scholarship'` — the URL-slug
fallback of `generate_filename`. -/
def urlSlug (url : String) : String :=
  match (pySplitSlash url.toList).getLast? with
  | some s => String.mk s
  | none => "scholarship"

/-- `MasterScraper.generate_filename`: sanitize the name
(`re.sub(r'[^\w\s-]', '', name).strip()`), replace each space by an
underscore, truncate to 100 characters, append `.json`; if the name is
empty, or the sanitized name came out empty, fall back to the last
`/`-separated segment of the url. -/
def generate_filename (scholarship_name url : String) : String :=
  if scholarship_name = "" then urlSlug url ++ ".json"
  else
    let filename :=
      ((pyStrip (scholarship_name.toList.filter keepChar)).map
        (fun c => if c = ' ' then '_' else c)).take 100
    if filename.isEmpty then urlSlug url ++ ".json"
    else String.mk filename ++ ".json"

/-- Collapse each maximal whitespace run to a single underscore (used
only by `derive_key_claim`, the reading of claim C9's words). -/
def collapseWsAux : Bool → List Char → List Char
  | _, [] => []
  | prevSpace, c :: rest =>
    if pyIsSpaceChar c then
      if prevSpace then collapseWsAux true rest
      else '_' :: collapseWsAux true rest
    else c :: collapseWsAux false rest

/-- See `collapseWsAux`. -/
def collapseWs (l : List Char) : List Char := collapseWsAux false l

/-- Key derivation exactly as claim C9 words it: strip characters that
are not word characters, whitespace, or hyphens from `name`, collapse
whitespace to underscores, truncate to 100 characters and append
`.json`; if `name` is empty, fall back to the last `/`-separated
segment of `url` plus `.json`.  (For comparison against
`generate_filename`, which is translated from the source.) -/
def derive_key_claim (name url : String) : String :=
  if name = "" then urlSlug url ++ ".json"
  else String.mk ((collapseWs (name.toList.filter keepChar)).take 100) ++ ".json"

/-- Key derivation as the amended claim C9 words it: remove characters
that are not word characters, whitespace or hyphens, trim surrounding
whitespace, replace each space character by an underscore (runs are not
collapsed and other whitespace is kept), truncate to 100 characters and
append `.json`; fall back to the URL slug when `name` is empty or when
the sanitized name is empty. -/
def derive_key_amended (name url : String) : String :=
  let sanitized := pyStrip (name.toList.filter keepChar)
  if name = "" ∨ sanitized = [] then urlSlug url ++ ".json"
  else
    String.mk ((sanitized.map (fun c => if c = ' ' then '_' else c)).take 100) ++ ".json"

/-! ## The queue -/

/-- One row of `scholarship_queue.csv`: columns `Scholarship Name`,
`URL`, `is_scraped` (the `'True'/'False'` string as a `Bool`). -/
structure Entry where
  name : String
  url : String
  scraped : Bool
deriving DecidableEq, Repr

/-- `MasterScraper.is_scraped`: does the record store already hold the
file this entry would be saved under? -/
def is_scraped (store : List String) (scholarship_name url : String) : Bool :=
  store.contains (generate_filename scholarship_name url)

/-- `MasterScraper.initialize_queue`: rebuild the queue from the source
scholarship list, marking each row by a record-store existence probe.
(The previous queue file is not consulted.) -/
def initQueue (store : List String) (rows : List (String × String)) : List Entry :=
  rows.map (fun r => { name := r.1, url := r.2, scraped := is_scraped store r.1 r.2 })

/-- `MasterScraper.update_queue`: set the `is_scraped` flag of every row
whose `URL` equals `u`, rewriting the whole file. -/
def update_queue (q : List Entry) (u : String) (flag : Bool) : List Entry :=
  q.map (fun row => if row.url = u then { row with scraped := flag } else row)

/-- `MasterScraper.count_remaining`: rows still marked `'False'`. -/
def count_remaining (q : List Entry) : Nat :=
  (q.filter (fun row => !row.scraped)).length

/-- Scan loop of `MasterScraper.get_next_unscraped`: `rest` is the
remainder of the csv-reader snapshot, `cur` the current queue file.  A
`'False'` row whose file already exists is healed (`update_queue`) and
the scan continues; the first `'False'` row without a file is returned. -/
def getNextAux (store : List String) (cur : List Entry) : List Entry → List Entry × Option Entry
  | [] => (cur, none)
  | row :: rest =>
    if row.scraped then getNextAux store cur rest
    else if is_scraped store row.name row.url then
      getNextAux store (update_queue cur row.url true) rest
    else (cur, some row)

/-- `MasterScraper.get_next_unscraped`: returns the (possibly healed)
queue file together with the first genuinely unscraped row, if any. -/
def get_next_unscraped (store : List String) (q : List Entry) : List Entry × Option Entry :=
  getNextAux store q q

/-! ## The extractor collaborator and the retry loop -/

/-- The slice of a scraped record the orchestrator inspects: the value
of the `name` key (`""` when the key is missing or empty). -/
structure Record where
  name : String
deriving DecidableEq, Repr

/-- One extractor call's outcome: a record, a `None` return, or a raised
exception carrying its message. -/
inductive ExtractResult where
  | ok (rcd : Record)
  | noData
  | err (msg : String)
deriving DecidableEq, Repr

/-- The page extractor as an oracle: from the global invocation count
and the url to an outcome (so always-fail, always-succeed and mixed
behaviours are all instances). -/
abbrev Extractor := Nat → String → ExtractResult

/-- Result of the `for attempt in range(1, max_retries + 1)` loop:
whether it broke with success, the last recorded error, the record
store after any save, and the updated invocation count. -/
structure RetryResult where
  success : Bool
  lastErr : Option String
  store : List String
  calls : Nat
deriving DecidableEq, Repr

/-- The retry loop body: each attempt calls the extractor; a record
with non-empty `name` saves the file and breaks; `None` (or an
empty/missing `name`) records `"No data returned from scraper"`; an
exception records its message.  `k` is the number of attempts left. -/
def retryLoop (ext : Extractor) (scholarship_name url : String) :
    Nat → List String → Nat → Option String → RetryResult
  | 0, store, calls, le => ⟨false, le, store, calls⟩
  | k + 1, store, calls, le =>
    match ext calls url with
    | .ok rcd =>
      if rcd.name = "" then
        retryLoop ext scholarship_name url k store (calls + 1)
          (some "No data returned from scraper")
      else
        ⟨true, le, generate_filename scholarship_name url :: store, calls + 1⟩
    | .noData =>
      retryLoop ext scholarship_name url k store (calls + 1)
        (some "No data returned from scraper")
    | .err m =>
      retryLoop ext scholarship_name url k store (calls + 1) (some m)

/-! ## The run loop -/

/-- One element of the `skipped` report list. -/
structure SkipItem where
  name : String
  url : String
  reason : String
deriving DecidableEq, Repr

/-- The orchestrator's state between `while True` iterations.  `queue`,
`store`, `processed`, `failed` and `skipped` mirror the source;
`calls`, `attempted` and `delays` are ghost instrumentation (extractor
invocations, rows handed to the retry loop, bottom-of-loop inter-item
sleeps). -/
structure RunState where
  queue : List Entry
  store : List String
  processed : Nat
  failed : Nat
  skipped : List SkipItem
  calls : Nat
  attempted : List (String × String)
  delays : Nat
deriving DecidableEq, Repr

/-- Outcome of one `while True` iteration: the loop broke (queue empty)
or continues with a new state. -/
inductive StepResult where
  | finished (s : RunState)
  | continued (s : RunState)
deriving DecidableEq, Repr

/-- State after the retry loop for entry `e`: on success mark the row,
record the save and count it processed; otherwise count it failed and
append it to the skipped report with its last error reason. -/
def afterRetry (s : RunState) (q' : List Entry) (e : Entry) (r : RetryResult) : RunState :=
  if r.success then
    { s with queue := update_queue q' e.url true, store := r.store,
             processed := s.processed + 1, calls := r.calls,
             attempted := s.attempted ++ [(e.name, e.url)] }
  else
    { s with queue := update_queue q' e.url true, store := r.store,
             failed := s.failed + 1,
             skipped := s.skipped ++ [⟨e.name, e.url, r.lastErr.getD "Unknown error"⟩],
             calls := r.calls,
             attempted := s.attempted ++ [(e.name, e.url)] }

/-- Body of one `while True` iteration on a selected entry `e` (with
`q'` the queue file after selection): the pre-scrape existence
re-check (`continue`, skipping the inter-item sleep), else the retry
loop; the inter-item sleep happens only when more than one unscraped
row remained at selection time. -/
def processEntry (ext : Extractor) (max_retries : Nat)
    (s : RunState) (q' : List Entry) (e : Entry) : RunState :=
  if is_scraped s.store e.name e.url then
    { s with queue := update_queue q' e.url true, processed := s.processed + 1 }
  else
    let s1 := afterRetry s q' e
      (retryLoop ext e.name e.url max_retries s.store s.calls none)
    if count_remaining q' > 1 then { s1 with delays := s1.delays + 1 } else s1

/-- One `while True` iteration of `MasterScraper.run`. -/
def runStep (ext : Extractor) (max_retries : Nat) (s : RunState) : StepResult :=
  match get_next_unscraped s.store s.queue with
  | (q', none) => .finished { s with queue := q' }
  | (q', some e) => .continued (processEntry ext max_retries s q' e)

/-- The `while True` loop, with fuel.  `runLoop_isSome` below shows the
fuel `count_remaining q + 1` used by `runFrom` always suffices, i.e.
the source's unbounded loop terminates. -/
def runLoop (ext : Extractor) (max_retries : Nat) : Nat → RunState → Option RunState
  | 0, _ => none
  | fuel + 1, s =>
    match runStep ext max_retries s with
    | .finished s' => some s'
    | .continued s' => runLoop ext max_retries fuel s'

/-- Fresh counters at loop entry (`processed = 0`, `failed = 0`,
`skipped = []`). -/
def initState (q : List Entry) (store : List String) : RunState :=
  ⟨q, store, 0, 0, [], 0, [], 0⟩

/-- The run loop started on a given queue file and record store. -/
def runFrom (ext : Extractor) (max_retries : Nat)
    (q : List Entry) (store : List String) : Option RunState :=
  runLoop ext max_retries (count_remaining q + 1) (initState q store)

/-- `MasterScraper.run`: `initialize_queue` from the source list, then
the loop. -/
def run (ext : Extractor) (max_retries : Nat)
    (store : List String) (rows : List (String × String)) : Option RunState :=
  runFrom ext max_retries (initQueue store rows) store

/-! ## Specification-side views used by the proofs -/

/-- The `(name, url)` pairs of the rows still marked unscraped, in queue
order. -/
def fFP (q : List Entry) : List (String × String) :=
  (q.filter (fun row => !row.scraped)).map (fun row => (row.name, row.url))

/-- Row `a` is row `b` with a possibly-raised scraped flag (the only way
the orchestrator ever rewrites a row). -/
def EntryLe (a b : Entry) : Prop :=
  a.name = b.name ∧ a.url = b.url ∧ (b.scraped = true → a.scraped = true)

/-! ## Basic lemmas on the queue primitives -/

theorem count_remaining_cons (e : Entry) (q : List Entry) :
    count_remaining (e :: q) = (if e.scraped then 0 else 1) + count_remaining q := by
  by_cases h : e.scraped <;> simp [count_remaining, h, Nat.add_comm]

theorem count_remaining_append (a b : List Entry) :
    count_remaining (a ++ b) = count_remaining a + count_remaining b := by
  simp [count_remaining]

theorem count_remaining_le_length (q : List Entry) :
    count_remaining q ≤ q.length := by
  simpa [count_remaining] using List.length_filter_le _ q

theorem count_remaining_of_allTrue {q : List Entry}
    (h : ∀ x ∈ q, x.scraped = true) : count_remaining q = 0 := by
  induction q with
  | nil => rfl
  | cons e q ih =>
    have he := h e (by simp)
    have ih' := ih (fun x hx => h x (by simp [hx]))
    simp [count_remaining_cons, he, ih']

theorem fFP_length (q : List Entry) : (fFP q).length = count_remaining q := by
  simp [fFP, count_remaining]

theorem fFP_cons_true {e : Entry} (he : e.scraped = true) (q : List Entry) :
    fFP (e :: q) = fFP q := by
  simp [fFP, he]

theorem fFP_cons_false {e : Entry} (he : e.scraped = false) (q : List Entry) :
    fFP (e :: q) = (e.name, e.url) :: fFP q := by
  simp [fFP, he]

theorem fFP_append (a b : List Entry) : fFP (a ++ b) = fFP a ++ fFP b := by
  simp [fFP]

theorem fFP_of_allTrue {q : List Entry} (h : ∀ x ∈ q, x.scraped = true) :
    fFP q = [] := by
  induction q with
  | nil => rfl
  | cons e q ih =>
    rw [fFP_cons_true (h e (by simp)), ih (fun x hx => h x (by simp [hx]))]

/-! ### `update_queue` -/

theorem update_queue_append (a b : List Entry) (u : String) (flag : Bool) :
    update_queue (a ++ b) u flag = update_queue a u flag ++ update_queue b u flag := by
  simp [update_queue]

theorem update_queue_cons (e : Entry) (q : List Entry) (u : String) (flag : Bool) :
    update_queue (e :: q) u flag =
      (if e.url = u then { e with scraped := flag } else e) :: update_queue q u flag := by
  simp [update_queue]

theorem update_queue_no_match {q : List Entry} {u : String} {flag : Bool}
    (h : ∀ x ∈ q, x.url ≠ u) : update_queue q u flag = q := by
  induction q with
  | nil => rfl
  | cons e q ih =>
    rw [update_queue_cons, if_neg (h e (by simp)), ih (fun x hx => h x (by simp [hx]))]

theorem update_queue_true_all_url (q : List Entry) (u : String) :
    ∀ x ∈ update_queue q u true, x.url = u → x.scraped = true := by
  intro x hx hurl
  simp only [update_queue, List.mem_map] at hx
  obtain ⟨row, _, hrow⟩ := hx
  subst hrow
  by_cases h : row.url = u
  · simp [h]
  · simp [h] at hurl

theorem update_queue_true_preserves_allTrue {q : List Entry} {u : String}
    (h : ∀ x ∈ q, x.scraped = true) :
    ∀ x ∈ update_queue q u true, x.scraped = true := by
  intro x hx
  simp only [update_queue, List.mem_map] at hx
  obtain ⟨row, hrowq, hrow⟩ := hx
  subst hrow
  by_cases hc : row.url = u
  · simp [hc]
  · simpa [hc] using h row hrowq

theorem update_queue_preserves_allTrueAt {q : List Entry} {u v : String}
    (h : ∀ x ∈ q, x.url = v → x.scraped = true) :
    ∀ x ∈ update_queue q u true, x.url = v → x.scraped = true := by
  intro x hx hurl
  simp only [update_queue, List.mem_map] at hx
  obtain ⟨row, hrowq, hrow⟩ := hx
  subst hrow
  by_cases hc : row.url = u
  · simp [hc]
  · simp [hc] at hurl ⊢; exact h row hrowq hurl

theorem update_queue_urls (q : List Entry) (u : String) (flag : Bool) :
    (update_queue q u flag).map (fun x => x.url) = q.map (fun x => x.url) := by
  induction q with
  | nil => rfl
  | cons e q ih =>
    rw [update_queue_cons]
    by_cases h : e.url = u <;> simp [h, ih]

theorem fFP_update_queue_sublist (q : List Entry) (u : String) :
    List.Sublist (fFP (update_queue q u true)) (fFP q) := by
  induction q with
  | nil => exact List.Sublist.refl _
  | cons e q ih =>
    rw [update_queue_cons]
    by_cases h : e.url = u
    · rw [if_pos h]
      rw [fFP_cons_true (by simp)]
      by_cases hs : e.scraped
      · rw [fFP_cons_true hs]; exact ih
      · rw [fFP_cons_false (by simpa using hs)]; exact ih.cons _
    · rw [if_neg h]
      by_cases hs : e.scraped
      · rw [fFP_cons_true hs, fFP_cons_true hs]; exact ih
      · rw [fFP_cons_false (by simpa using hs), fFP_cons_false (by simpa using hs)]
        exact ih.cons₂ _

/-! ### `EntryLe` -/

theorem EntryLe.refl (a : Entry) : EntryLe a a := ⟨rfl, rfl, fun h => h⟩

theorem forall₂_entryLe_refl (l : List Entry) : List.Forall₂ EntryLe l l :=
  List.forall₂_same.2 (fun a _ => EntryLe.refl a)

theorem forall₂_entryLe_update {l m : List Entry} {u : String}
    (h : List.Forall₂ EntryLe l m) :
    List.Forall₂ EntryLe (update_queue l u true) m := by
  induction h with
  | nil => exact List.Forall₂.nil
  | cons hab hrest ih =>
    rw [update_queue_cons]
    refine List.Forall₂.cons ?_ ih
    rename_i a b _ _
    by_cases hc : a.url = u
    · rw [if_pos hc]
      exact ⟨hab.1, hab.2.1, fun _ => rfl⟩
    · rw [if_neg hc]; exact hab

theorem fFP_sublist_of_forall₂ {l m : List Entry}
    (h : List.Forall₂ EntryLe l m) : List.Sublist (fFP l) (fFP m) := by
  induction h with
  | nil => exact List.Sublist.refl _
  | cons hab hrest ih =>
    rename_i a b _ _
    by_cases hs : a.scraped
    · rw [fFP_cons_true hs]
      by_cases hsb : b.scraped
      · rw [fFP_cons_true hsb]; exact ih
      · rw [fFP_cons_false (by simpa using hsb)]; exact ih.cons _
    · have hsb : b.scraped = false := by
        by_contra hb
        exact hs (hab.2.2 (by simpa using hb))
      rw [fFP_cons_false (by simpa using hs), fFP_cons_false hsb,
        hab.1, hab.2.1]
      exact List.Sublist.cons₂ _ ih

theorem is_scraped_iff_mem {store : List String} {n u : String} :
    is_scraped store n u = true ↔ generate_filename n u ∈ store := by
  simp [is_scraped, List.elem_iff]

/-! ### The selection scan

The workhorse: as `getNextAux` walks the snapshot, the working queue is
the already-scanned prefix (every row of which has ended up marked
scraped) followed by rows that are the unscanned snapshot rows with
possibly-raised flags.  From this single induction we obtain: a `none`
result means the healed queue is fully scraped; a `some e` result is a
genuinely unscraped, file-less row, and marking it leaves the unscraped
rows an order-preserving subsequence of the snapshot's unscraped rows
minus `e` — which also gives strict progress. -/

theorem getNextAux_main (store : List String) :
    ∀ (rest curPre curRest q' : List Entry) (res : Option Entry),
      List.Forall₂ EntryLe curRest rest →
      (∀ x ∈ curPre, x.scraped = true) →
      getNextAux store (curPre ++ curRest) rest = (q', res) →
      ((res = none → ∀ x ∈ q', x.scraped = true) ∧
       (∀ e, res = some e →
          e.scraped = false ∧ is_scraped store e.name e.url = false ∧
          List.Sublist ((e.name, e.url) :: fFP (update_queue q' e.url true)) (fFP rest))) := by
  intro rest
  induction rest with
  | nil =>
    intro curPre curRest q' res hrel hpre hrun
    cases hrel
    simp only [getNextAux] at hrun
    injection hrun with h1 h2
    subst h1; subst h2
    constructor
    · intro _ x hx
      exact hpre x (by simpa using hx)
    · intro e he; cases he
  | cons r rest' ih =>
    intro curPre curRest q' res hrel hpre hrun
    rw [List.forall₂_cons_right_iff] at hrel
    obtain ⟨x, curTail, hxr, hrel', rfl⟩ := hrel
    simp only [getNextAux] at hrun
    by_cases hr : r.scraped
    · rw [if_pos hr] at hrun
      have hpre' : ∀ y ∈ curPre ++ [x], y.scraped = true := by
        intro y hy
        rcases List.mem_append.1 hy with hy | hy
        · exact hpre y hy
        · rw [List.mem_singleton.1 hy]
          exact hxr.2.2 hr
      rw [List.append_cons curPre x curTail] at hrun
      have H := ih (curPre ++ [x]) curTail q' res hrel' hpre' hrun
      refine ⟨H.1, ?_⟩
      intro e he
      obtain ⟨h1, h2, h3⟩ := H.2 e he
      exact ⟨h1, h2, by rwa [fFP_cons_true hr]⟩
    · rw [if_neg hr] at hrun
      have hrB : r.scraped = false := by simpa using hr
      by_cases hscr : is_scraped store r.name r.url
      · rw [if_pos hscr] at hrun
        rw [update_queue_append, update_queue_cons, if_pos hxr.2.1,
          List.append_cons (update_queue curPre r.url true)] at hrun
        have hpre' : ∀ y ∈ update_queue curPre r.url true ++ [{ x with scraped := true }],
            y.scraped = true := by
          intro y hy
          rcases List.mem_append.1 hy with hy | hy
          · exact update_queue_true_preserves_allTrue hpre y hy
          · rw [List.mem_singleton.1 hy]
        have H := ih (update_queue curPre r.url true ++ [{ x with scraped := true }])
          (update_queue curTail r.url true) q' res (forall₂_entryLe_update hrel') hpre' hrun
        refine ⟨H.1, ?_⟩
        intro e he
        obtain ⟨h1, h2, h3⟩ := H.2 e he
        refine ⟨h1, h2, ?_⟩
        rw [fFP_cons_false hrB]
        exact h3.cons _
      · rw [if_neg hscr] at hrun
        injection hrun with h1 h2
        subst h1; subst h2
        constructor
        · intro h; cases h
        · intro e he
          injection he with he'
          subst he'
          refine ⟨hrB, by simpa using hscr, ?_⟩
          rw [fFP_cons_false hrB]
          rw [update_queue_append, update_queue_cons, if_pos hxr.2.1, fFP_append]
          rw [fFP_of_allTrue (update_queue_true_preserves_allTrue hpre)]
          rw [fFP_cons_true (show ({ x with scraped := true } : Entry).scraped = true from rfl)]
          refine List.Sublist.cons₂ _ ?_
          exact (fFP_update_queue_sublist curTail r.url).trans (fFP_sublist_of_forall₂ hrel')

/-- `get_next_unscraped` returning `none` means every row of the healed
queue is marked scraped. -/
theorem get_next_none_allTrue {store : List String} {q q' : List Entry}
    (h : get_next_unscraped store q = (q', none)) :
    ∀ x ∈ q', x.scraped = true := by
  have H := getNextAux_main store q [] q q' none (forall₂_entryLe_refl q) (by simp)
    (by simpa [get_next_unscraped] using h)
  exact H.1 rfl

/-- `get_next_unscraped` returning `some e`: `e` is an unscraped row
with no record file, and marking it leaves the unscraped `(name, url)`
rows a proper suffix-respecting subsequence of the original ones. -/
theorem get_next_some_props {store : List String} {q q' : List Entry} {e : Entry}
    (h : get_next_unscraped store q = (q', some e)) :
    e.scraped = false ∧ is_scraped store e.name e.url = false ∧
      List.Sublist ((e.name, e.url) :: fFP (update_queue q' e.url true)) (fFP q) := by
  have H := getNextAux_main store q [] q q' (some e) (forall₂_entryLe_refl q) (by simp)
    (by simpa [get_next_unscraped] using h)
  exact H.2 e rfl

/-- Strict progress: marking the selected row strictly decreases the
number of unscraped rows. -/
theorem get_next_some_decrease {store : List String} {q q' : List Entry} {e : Entry}
    (h : get_next_unscraped store q = (q', some e)) :
    count_remaining (update_queue q' e.url true) < count_remaining q := by
  have H := (get_next_some_props h).2.2.length_le
  simp only [List.length_cons, fFP_length] at H
  omega

/-- Under the data model's URL-uniqueness invariant the scan is purely
structural: a heal touches only its own row, so a `some e` result
decomposes the healed queue as an all-scraped prefix, the row `e`
itself, and the untouched tail (which shares no URL with `e`). -/
theorem getNextAux_nodup (store : List String) :
    ∀ (rest curPre q' : List Entry) (res : Option Entry),
      (∀ x ∈ curPre, x.scraped = true) →
      ((curPre ++ rest).map (fun x => x.url)).Nodup →
      getNextAux store (curPre ++ rest) rest = (q', res) →
      ∀ e, res = some e →
        ∃ c1 p2, q' = c1 ++ e :: p2 ∧ (∀ x ∈ c1, x.scraped = true) ∧
          e.scraped = false ∧ is_scraped store e.name e.url = false ∧
          (∀ x ∈ p2, x.url ≠ e.url) := by
  intro rest
  induction rest with
  | nil =>
    intro curPre q' res hpre hnd hrun
    simp only [getNextAux] at hrun
    injection hrun with h1 h2
    subst h1; subst h2
    intro e he; cases he
  | cons r rest' ih =>
    intro curPre q' res hpre hnd hrun
    simp only [getNextAux] at hrun
    have hne : ∀ x ∈ rest', x.url ≠ r.url := by
      intro x hx hxu
      have hnd2 : ((r :: rest').map (fun y => y.url)).Nodup := by
        rw [List.map_append] at hnd
        exact hnd.of_append_right
      rw [List.map_cons, List.nodup_cons] at hnd2
      exact hnd2.1 (List.mem_map.2 ⟨x, hx, hxu⟩)
    by_cases hr : r.scraped
    · rw [if_pos hr] at hrun
      have hpre' : ∀ y ∈ curPre ++ [r], y.scraped = true := by
        intro y hy
        rcases List.mem_append.1 hy with hy | hy
        · exact hpre y hy
        · rw [List.mem_singleton.1 hy]; exact hr
      rw [List.append_cons curPre r rest'] at hrun hnd
      exact ih (curPre ++ [r]) q' res hpre' hnd hrun
    · rw [if_neg hr] at hrun
      have hrB : r.scraped = false := by simpa using hr
      by_cases hscr : is_scraped store r.name r.url
      · rw [if_pos hscr] at hrun
        rw [update_queue_append, update_queue_cons, if_pos rfl,
          update_queue_no_match hne,
          List.append_cons (update_queue curPre r.url true)] at hrun
        have hpre' : ∀ y ∈ update_queue curPre r.url true ++ [{ r with scraped := true }],
            y.scraped = true := by
          intro y hy
          rcases List.mem_append.1 hy with hy | hy
          · exact update_queue_true_preserves_allTrue hpre y hy
          · rw [List.mem_singleton.1 hy]
        have hnd' : (((update_queue curPre r.url true ++ [{ r with scraped := true }]) ++ rest').map
            (fun x : Entry => x.url)).Nodup := by
          have heq : ((update_queue curPre r.url true ++ [{ r with scraped := true }]) ++ rest').map
              (fun x : Entry => x.url) = (curPre ++ r :: rest').map (fun x : Entry => x.url) := by
            simp [update_queue_urls]
          rw [heq]; exact hnd
        exact ih (update_queue curPre r.url true ++ [{ r with scraped := true }]) q' res
          hpre' hnd' hrun
      · rw [if_neg hscr] at hrun
        injection hrun with h1 h2
        subst h1; subst h2
        intro e he
        injection he with he'
        subst he'
        exact ⟨curPre, rest', rfl, hpre, hrB, by simpa using hscr, hne⟩

/-- Scanning an all-scraped snapshot segment does nothing. -/
theorem getNextAux_skip_true (store : List String) :
    ∀ (a : List Entry), (∀ x ∈ a, x.scraped = true) →
      ∀ (cur b : List Entry), getNextAux store cur (a ++ b) = getNextAux store cur b := by
  intro a
  induction a with
  | nil => intro _ cur b; rfl
  | cons r a ih =>
    intro h cur b
    have hr := h r (by simp)
    simp only [List.cons_append, getNextAux, if_pos hr]
    exact ih (fun x hx => h x (by simp [hx])) cur b

/-- The scan only raises flags, so "every row with this URL is scraped"
is preserved. -/
theorem getNextAux_preserves_allTrueAt (store : List String) (v : String) :
    ∀ (rest cur q' : List Entry) (res : Option Entry),
      getNextAux store cur rest = (q', res) →
      (∀ x ∈ cur, x.url = v → x.scraped = true) →
      (∀ x ∈ q', x.url = v → x.scraped = true) := by
  intro rest
  induction rest with
  | nil =>
    intro cur q' res hrun h
    simp only [getNextAux] at hrun
    injection hrun with h1 _
    subst h1; exact h
  | cons r rest' ih =>
    intro cur q' res hrun h
    simp only [getNextAux] at hrun
    by_cases hr : r.scraped
    · rw [if_pos hr] at hrun
      exact ih cur q' res hrun h
    · rw [if_neg hr] at hrun
      by_cases hscr : is_scraped store r.name r.url
      · rw [if_pos hscr] at hrun
        exact ih _ q' res hrun (update_queue_preserves_allTrueAt h)
      · rw [if_neg hscr] at hrun
        injection hrun with h1 _
        subst h1; exact h

/-- Exact shape of a `some` selection under unique URLs: all-scraped
prefix, the selected row, untouched tail sharing no URL with it. -/
theorem get_next_nodup_decomp {store : List String} {q q' : List Entry} {e : Entry}
    (hnd : (q.map (fun x : Entry => x.url)).Nodup)
    (h : get_next_unscraped store q = (q', some e)) :
    ∃ c1 p2, q' = c1 ++ e :: p2 ∧ (∀ x ∈ c1, x.scraped = true) ∧
      e.scraped = false ∧ is_scraped store e.name e.url = false ∧
      (∀ x ∈ p2, x.url ≠ e.url) :=
  getNextAux_nodup store q [] q' (some e) (by simp) (by simpa using hnd)
    (by simpa [get_next_unscraped] using h) e rfl

/-- Under unique URLs, marking the selected row removes exactly one
unscraped row. -/
theorem get_next_nodup_count {store : List String} {q q' : List Entry} {e : Entry}
    (hnd : (q.map (fun x : Entry => x.url)).Nodup)
    (h : get_next_unscraped store q = (q', some e)) :
    count_remaining (update_queue q' e.url true) + 1 = count_remaining q' := by
  obtain ⟨c1, p2, rfl, hc1, heF, _, hp2⟩ := get_next_nodup_decomp hnd h
  rw [update_queue_append, update_queue_cons, if_pos rfl, update_queue_no_match hp2]
  rw [count_remaining_append, count_remaining_append, count_remaining_cons,
    count_remaining_cons, heF]
  rw [count_remaining_of_allTrue hc1,
    count_remaining_of_allTrue (update_queue_true_preserves_allTrue hc1)]
  simp
  omega


/-! ### The retry loop -/

/-- One-step unfolding of the retry loop. -/
theorem retryLoop_succ_eq (ext : Extractor) (n u : String)
    (k : Nat) (store : List String) (calls : Nat) (le : Option String) :
    retryLoop ext n u (k + 1) store calls le =
      match ext calls u with
      | .ok rcd =>
        if rcd.name = "" then
          retryLoop ext n u k store (calls + 1) (some "No data returned from scraper")
        else ⟨true, le, generate_filename n u :: store, calls + 1⟩
      | .noData =>
        retryLoop ext n u k store (calls + 1) (some "No data returned from scraper")
      | .err m => retryLoop ext n u k store (calls + 1) (some m) := rfl

theorem retryLoop_calls_le (ext : Extractor) (n u : String) :
    ∀ (k : Nat) (store : List String) (calls : Nat) (le : Option String),
      (retryLoop ext n u k store calls le).calls ≤ calls + k := by
  intro k
  induction k with
  | zero => intro store calls le; simp [retryLoop]
  | succ k ih =>
    intro store calls le
    rw [retryLoop_succ_eq]
    cases hx : ext calls u with
    | ok rcd =>
      dsimp only
      by_cases hn : rcd.name = ""
      · rw [if_pos hn]
        have := ih store (calls + 1) (some "No data returned from scraper")
        omega
      · rw [if_neg hn]
        dsimp only; omega
    | noData =>
      dsimp only
      have := ih store (calls + 1) (some "No data returned from scraper")
      omega
    | err m =>
      dsimp only
      have := ih store (calls + 1) (some m)
      omega

theorem retryLoop_store_mono (ext : Extractor) (n u : String) :
    ∀ (k : Nat) (store : List String) (calls : Nat) (le : Option String) (f : String),
      f ∈ store → f ∈ (retryLoop ext n u k store calls le).store := by
  intro k
  induction k with
  | zero => intro store calls le f hf; simpa [retryLoop] using hf
  | succ k ih =>
    intro store calls le f hf
    rw [retryLoop_succ_eq]
    cases hx : ext calls u with
    | ok rcd =>
      dsimp only
      by_cases hn : rcd.name = ""
      · rw [if_pos hn]; exact ih store (calls + 1) _ f hf
      · rw [if_neg hn]; simp [hf]
    | noData => dsimp only; exact ih store (calls + 1) _ f hf
    | err m => dsimp only; exact ih store (calls + 1) _ f hf

/-- An extractor that always soft-fails (`None`, or a record with no
usable `name`) burns every remaining attempt: no success, the generic
error reason, nothing saved, one invocation per attempt. -/
theorem retryLoop_all_soft (ext : Extractor) (n u : String)
    (hext : ∀ c v, ext c v = .noData ∨ ∃ rcd, ext c v = .ok rcd ∧ rcd.name = "") :
    ∀ (k : Nat) (store : List String) (calls : Nat) (le : Option String),
      retryLoop ext n u (k + 1) store calls le =
        ⟨false, some "No data returned from scraper", store, calls + (k + 1)⟩ := by
  intro k
  induction k with
  | zero =>
    intro store calls le
    rw [retryLoop_succ_eq]
    rcases hext calls u with hx | ⟨rcd, hx, hname⟩
    · rw [hx]; simp [retryLoop]
    · rw [hx]; dsimp only; rw [if_pos hname]; simp [retryLoop]
  | succ k ih =>
    intro store calls le
    have harith : calls + 1 + (k + 1) = calls + (k + 1 + 1) := by omega
    rw [retryLoop_succ_eq]
    rcases hext calls u with hx | ⟨rcd, hx, hname⟩
    · rw [hx]
      dsimp only
      rw [ih store (calls + 1) (some "No data returned from scraper"), harith]
    · rw [hx]; dsimp only; rw [if_pos hname]
      rw [ih store (calls + 1) (some "No data returned from scraper"), harith]

/-- A first-attempt success: save the file, keep `last_error`, break out
with exactly one extractor invocation. -/
theorem retryLoop_first_ok (ext : Extractor) (n u : String) {rcd : Record}
    (k : Nat) (store : List String) (calls : Nat) (le : Option String)
    (h : ext calls u = .ok rcd) (hn : rcd.name ≠ "") :
    retryLoop ext n u (k + 1) store calls le =
      ⟨true, le, generate_filename n u :: store, calls + 1⟩ := by
  rw [retryLoop_succ_eq, h]; dsimp only; rw [if_neg hn]

/-- A failed attempt (soft or raised) consumes exactly one attempt and
one invocation, records the appropriate reason, and loops on. -/
theorem retryLoop_first_fail (ext : Extractor) (n u : String)
    (k : Nat) (store : List String) (calls : Nat) (le : Option String)
    (h : ∀ rcd, ext calls u = .ok rcd → rcd.name = "") :
    retryLoop ext n u (k + 1) store calls le =
      retryLoop ext n u k store (calls + 1)
        (some (match ext calls u with
               | .err m => m
               | _ => "No data returned from scraper")) := by
  rw [retryLoop_succ_eq]
  cases hx : ext calls u with
  | ok rcd => dsimp only; rw [if_pos (h rcd hx)]
  | noData => rfl
  | err m => rfl

/-- A raised exception consumes exactly one attempt and records its
message as the last error. -/
theorem retryLoop_err_step (ext : Extractor) (n u : String)
    (k : Nat) (store : List String) (calls : Nat) (le : Option String) {m : String}
    (h : ext calls u = .err m) :
    retryLoop ext n u (k + 1) store calls le =
      retryLoop ext n u k store (calls + 1) (some m) := by
  rw [retryLoop_succ_eq, h]

/-! ### One loop iteration -/

theorem runStep_eq_finished {ext : Extractor} {mr : Nat} {s : RunState} {q' : List Entry}
    (h : get_next_unscraped s.store s.queue = (q', none)) :
    runStep ext mr s = .finished { s with queue := q' } := by
  unfold runStep; rw [h]

theorem runStep_eq_continued {ext : Extractor} {mr : Nat} {s : RunState}
    {q' : List Entry} {e : Entry}
    (h : get_next_unscraped s.store s.queue = (q', some e)) :
    runStep ext mr s = .continued (processEntry ext mr s q' e) := by
  unfold runStep; rw [h]

theorem runStep_finished_inv {ext : Extractor} {mr : Nat} {s s' : RunState}
    (h : runStep ext mr s = .finished s') :
    ∃ q', get_next_unscraped s.store s.queue = (q', none) ∧ s' = { s with queue := q' } := by
  unfold runStep at h
  rcases hg : get_next_unscraped s.store s.queue with ⟨q', res⟩
  rw [hg] at h
  cases res with
  | none => injection h with h'; exact ⟨q', rfl, h'.symm⟩
  | some e => cases h

theorem runStep_continued_inv {ext : Extractor} {mr : Nat} {s s' : RunState}
    (h : runStep ext mr s = .continued s') :
    ∃ q' e, get_next_unscraped s.store s.queue = (q', some e) ∧
      s' = processEntry ext mr s q' e := by
  unfold runStep at h
  rcases hg : get_next_unscraped s.store s.queue with ⟨q', res⟩
  rw [hg] at h
  cases res with
  | none => cases h
  | some e => injection h with h'; exact ⟨q', e, rfl, h'.symm⟩

/-- The queue after any processed entry: the healed queue with the
entry's URL marked, in every branch. -/
theorem processEntry_queue (ext : Extractor) (mr : Nat)
    (s : RunState) (q' : List Entry) (e : Entry) :
    (processEntry ext mr s q' e).queue = update_queue q' e.url true := by
  simp only [processEntry, afterRetry]
  by_cases h1 : is_scraped s.store e.name e.url
  · simp [h1]
  · by_cases h2 : (retryLoop ext e.name e.url mr s.store s.calls none).success <;>
      by_cases h3 : count_remaining q' > 1 <;>
      simp [h1, h2, h3]

/-- Field values of a processed entry on the extraction path (the
pre-scrape re-check failed to find the file). -/
theorem processEntry_fields (ext : Extractor) (mr : Nat)
    (s : RunState) (q' : List Entry) (e : Entry)
    (hns : is_scraped s.store e.name e.url = false) :
    (processEntry ext mr s q' e).store =
        (retryLoop ext e.name e.url mr s.store s.calls none).store ∧
    (processEntry ext mr s q' e).calls =
        (retryLoop ext e.name e.url mr s.store s.calls none).calls ∧
    (processEntry ext mr s q' e).attempted = s.attempted ++ [(e.name, e.url)] ∧
    (processEntry ext mr s q' e).delays =
        (if count_remaining q' > 1 then s.delays + 1 else s.delays) := by
  simp only [processEntry, afterRetry]
  rw [if_neg (by simp [hns])]
  by_cases h2 : (retryLoop ext e.name e.url mr s.store s.calls none).success <;>
    by_cases h3 : count_remaining q' > 1 <;>
    simp [h2, h3]

/-- Extraction path, retry loop broke with success: processed count up,
failure report untouched. -/
theorem processEntry_success (ext : Extractor) (mr : Nat)
    (s : RunState) (q' : List Entry) (e : Entry)
    (hns : is_scraped s.store e.name e.url = false)
    (hsucc : (retryLoop ext e.name e.url mr s.store s.calls none).success = true) :
    (processEntry ext mr s q' e).processed = s.processed + 1 ∧
    (processEntry ext mr s q' e).failed = s.failed ∧
    (processEntry ext mr s q' e).skipped = s.skipped := by
  simp only [processEntry, afterRetry]
  rw [if_neg (by simp [hns])]
  by_cases h3 : count_remaining q' > 1 <;> simp [hsucc, h3]

/-- Extraction path, all retries exhausted: failed count up, the entry
appended to the skipped report with its last error reason. -/
theorem processEntry_exhausted (ext : Extractor) (mr : Nat)
    (s : RunState) (q' : List Entry) (e : Entry)
    (hns : is_scraped s.store e.name e.url = false)
    (hsucc : (retryLoop ext e.name e.url mr s.store s.calls none).success = false) :
    (processEntry ext mr s q' e).processed = s.processed ∧
    (processEntry ext mr s q' e).failed = s.failed + 1 ∧
    (processEntry ext mr s q' e).skipped = s.skipped ++
      [⟨e.name, e.url,
        (retryLoop ext e.name e.url mr s.store s.calls none).lastErr.getD "Unknown error"⟩] := by
  simp only [processEntry, afterRetry]
  rw [if_neg (by simp [hns])]
  by_cases h3 : count_remaining q' > 1 <;> simp [hsucc, h3]

/-! ### The run loop -/

theorem runStep_continued_decrease {ext : Extractor} {mr : Nat} {s s' : RunState}
    (h : runStep ext mr s = .continued s') :
    count_remaining s'.queue < count_remaining s.queue := by
  obtain ⟨q', e, hg, rfl⟩ := runStep_continued_inv h
  rw [processEntry_queue]
  exact get_next_some_decrease hg

/-- With fuel exceeding the number of unscraped rows, the loop reaches
its natural exit — the source's `while True` terminates. -/
theorem runLoop_isSome (ext : Extractor) (mr : Nat) :
    ∀ (fuel : Nat) (s : RunState), count_remaining s.queue < fuel →
      (runLoop ext mr fuel s).isSome := by
  intro fuel
  induction fuel with
  | zero => intro s h; omega
  | succ fuel ih =>
    intro s h
    simp only [runLoop]
    cases hs : runStep ext mr s with
    | finished s' => simp
    | continued s' =>
      have hd := runStep_continued_decrease hs
      exact ih s' (by omega)

theorem runLoop_calls_le (ext : Extractor) (mr : Nat) :
    ∀ (fuel : Nat) (s s' : RunState), runLoop ext mr fuel s = some s' →
      s'.calls ≤ s.calls + count_remaining s.queue * mr := by
  intro fuel
  induction fuel with
  | zero => intro s s' h; cases h
  | succ fuel ih =>
    intro s s' h
    simp only [runLoop] at h
    cases hs : runStep ext mr s with
    | finished s'' =>
      rw [hs] at h
      injection h with h'
      obtain ⟨q', _, hmk⟩ := runStep_finished_inv hs
      subst h'
      rw [hmk]
      exact Nat.le_add_right _ _
    | continued sMid =>
      rw [hs] at h
      have hIH := ih sMid s' h
      obtain ⟨q', e, hg, hmk⟩ := runStep_continued_inv hs
      have hns := (get_next_some_props hg).2.1
      have hcalls : sMid.calls ≤ s.calls + mr := by
        rw [hmk, (processEntry_fields ext mr s q' e hns).2.1]
        exact retryLoop_calls_le ext e.name e.url mr s.store s.calls none
      have hdec : count_remaining sMid.queue + 1 ≤ count_remaining s.queue := by
        have := runStep_continued_decrease hs
        omega
      calc s'.calls ≤ sMid.calls + count_remaining sMid.queue * mr := hIH
        _ ≤ (s.calls + mr) + count_remaining sMid.queue * mr := by omega
        _ = s.calls + (count_remaining sMid.queue + 1) * mr := by ring
        _ ≤ s.calls + count_remaining s.queue * mr :=
            Nat.add_le_add_left (Nat.mul_le_mul_right mr hdec) _

/-- At the natural exit every queue row is marked scraped. -/
theorem runLoop_final_allTrue (ext : Extractor) (mr : Nat) :
    ∀ (fuel : Nat) (s s' : RunState), runLoop ext mr fuel s = some s' →
      ∀ x ∈ s'.queue, x.scraped = true := by
  intro fuel
  induction fuel with
  | zero => intro s s' h; cases h
  | succ fuel ih =>
    intro s s' h
    simp only [runLoop] at h
    cases hs : runStep ext mr s with
    | finished s'' =>
      rw [hs] at h
      injection h with h'
      obtain ⟨q', hg, hmk⟩ := runStep_finished_inv hs
      subst h'
      rw [hmk]
      exact get_next_none_allTrue hg
    | continued sMid =>
      rw [hs] at h
      exact ih sMid s' h

theorem runLoop_store_mono (ext : Extractor) (mr : Nat) :
    ∀ (fuel : Nat) (s s' : RunState), runLoop ext mr fuel s = some s' →
      ∀ f ∈ s.store, f ∈ s'.store := by
  intro fuel
  induction fuel with
  | zero => intro s s' h; cases h
  | succ fuel ih =>
    intro s s' h f hf
    simp only [runLoop] at h
    cases hs : runStep ext mr s with
    | finished s'' =>
      rw [hs] at h
      injection h with h'
      obtain ⟨q', _, hmk⟩ := runStep_finished_inv hs
      subst h'
      rw [hmk]
      exact hf
    | continued sMid =>
      rw [hs] at h
      obtain ⟨q', e, hg, hmk⟩ := runStep_continued_inv hs
      have hns := (get_next_some_props hg).2.1
      have hfMid : f ∈ sMid.store := by
        rw [hmk, (processEntry_fields ext mr s q' e hns).1]
        exact retryLoop_store_mono ext e.name e.url mr s.store s.calls none f hf
      exact ih sMid s' h f hfMid

/-- Rows of a given URL that are all marked scraped stay marked through
the whole loop: the flag is never reset during a run. -/
theorem runLoop_allTrueAt_mono (ext : Extractor) (mr : Nat) (v : String) :
    ∀ (fuel : Nat) (s s' : RunState), runLoop ext mr fuel s = some s' →
      (∀ x ∈ s.queue, x.url = v → x.scraped = true) →
      (∀ x ∈ s'.queue, x.url = v → x.scraped = true) := by
  intro fuel
  induction fuel with
  | zero => intro s s' h; cases h
  | succ fuel ih =>
    intro s s' h hAt
    simp only [runLoop] at h
    cases hs : runStep ext mr s with
    | finished s'' =>
      rw [hs] at h
      injection h with h'
      obtain ⟨q', hg, hmk⟩ := runStep_finished_inv hs
      subst h'
      rw [hmk]
      exact getNextAux_preserves_allTrueAt s.store v s.queue s.queue q' none
        (by simpa [get_next_unscraped] using hg) hAt
    | continued sMid =>
      rw [hs] at h
      obtain ⟨q', e, hg, hmk⟩ := runStep_continued_inv hs
      have hq' := getNextAux_preserves_allTrueAt s.store v s.queue s.queue q' (some e)
        (by simpa [get_next_unscraped] using hg) hAt
      have hAtMid : ∀ x ∈ sMid.queue, x.url = v → x.scraped = true := by
        rw [hmk, processEntry_queue]
        exact update_queue_preserves_allTrueAt hq'
      exact ih sMid s' h hAtMid

/-- The rows handed to the retry loop during the rest of the run form
an order-preserving subsequence of the currently unscraped rows, and
none of them has its file in the current store. -/
theorem runLoop_attempted (ext : Extractor) (mr : Nat) :
    ∀ (fuel : Nat) (s s' : RunState), runLoop ext mr fuel s = some s' →
      ∃ t, s'.attempted = s.attempted ++ t ∧ List.Sublist t (fFP s.queue) ∧
        ∀ p ∈ t, generate_filename p.1 p.2 ∉ s.store := by
  intro fuel
  induction fuel with
  | zero => intro s s' h; cases h
  | succ fuel ih =>
    intro s s' h
    simp only [runLoop] at h
    cases hs : runStep ext mr s with
    | finished s'' =>
      rw [hs] at h
      injection h with h'
      obtain ⟨q', _, hmk⟩ := runStep_finished_inv hs
      subst h'
      refine ⟨[], ?_, List.nil_sublist _, by simp⟩
      rw [hmk]; simp
    | continued sMid =>
      rw [hs] at h
      obtain ⟨q', e, hg, hmk⟩ := runStep_continued_inv hs
      obtain ⟨heF, hns, hsub⟩ := get_next_some_props hg
      obtain ⟨t', ht'a, ht's, ht'st⟩ := ih sMid s' h
      have hfields := processEntry_fields ext mr s q' e hns
      refine ⟨(e.name, e.url) :: t', ?_, ?_, ?_⟩
      · rw [ht'a, hmk, hfields.2.2.1]
        simp
      · refine List.Sublist.trans ?_ hsub
        refine List.Sublist.cons₂ _ ?_
        have hqMid : sMid.queue = update_queue q' e.url true := by
          rw [hmk, processEntry_queue]
        rw [← hqMid]
        exact ht's
      · intro p hp
        rcases List.mem_cons.1 hp with hp | hp
        · subst hp
          intro hmem
          have : is_scraped s.store e.name e.url = true := is_scraped_iff_mem.2 hmem
          rw [hns] at this
          cases this
        · intro hmem
          have hmemMid : generate_filename p.1 p.2 ∈ sMid.store := by
            rw [hmk, hfields.1]
            exact retryLoop_store_mono ext e.name e.url mr s.store s.calls none _ hmem
          exact ht'st p hp hmemMid

/-! ### `initialize_queue` -/

theorem initQueue_flags (store : List String) (rows : List (String × String)) :
    ∀ e ∈ initQueue store rows, e.scraped = is_scraped store e.name e.url := by
  intro e he
  simp only [initQueue, List.mem_map] at he
  obtain ⟨r, _, rfl⟩ := he
  rfl

theorem fFP_initQueue (store : List String) (rows : List (String × String)) :
    fFP (initQueue store rows) = rows.filter (fun r => !(is_scraped store r.1 r.2)) := by
  induction rows with
  | nil => rfl
  | cons r rows ih =>
    simp only [initQueue, List.map_cons] at ih ⊢
    by_cases h : is_scraped store r.1 r.2
    · rw [fFP_cons_true (by simpa using h), ih, List.filter_cons]
      simp [h]
    · rw [fFP_cons_false (by simpa using h), ih, List.filter_cons]
      simp [h]

/-! ## Claim theorems -/

/-- C9 counterexample: on the name `"!!!"` (non-empty, but sanitizing
strips every character) the source falls back to the URL slug, while
the claim's described algorithm (sanitize, collapse whitespace,
truncate, append — falling back only when the name is empty) yields
`".json"`: the two keys differ. -/
theorem derive_key_claim_mismatch_cex :
    generate_filename "!!!" "http://x/abc" = "abc.json" ∧
    derive_key_claim "!!!" "http://x/abc" = ".json" ∧
    generate_filename "!!!" "http://x/abc" ≠ derive_key_claim "!!!" "http://x/abc" := by
  refine ⟨by decide, by decide, by decide⟩

/-- C9 (amended): `generate_filename` is a pure function of
`(name, url)` and equals the amended description: strip characters that
are not word characters, whitespace or hyphens, trim surrounding
whitespace, replace each space character by an underscore, truncate to
100 characters, append `.json`; fall back to the last `/`-segment of
`url` when the name is empty **or when the sanitized name is empty**. -/
theorem generate_filename_amended_eq (name url : String) :
    generate_filename name url = derive_key_amended name url := by
  by_cases h1 : name = ""
  · simp [generate_filename, derive_key_amended, h1]
  · by_cases h2 : pyStrip (name.toList.filter keepChar) = []
    · simp [generate_filename, derive_key_amended, h1, h2]
    · have h3 : ((pyStrip (name.toList.filter keepChar)).map
          (fun c => if c = ' ' then '_' else c)).take 100 ≠ [] := by
        rw [Ne, List.take_eq_nil_iff]
        push_neg
        exact ⟨by omega, by simpa [List.map_eq_nil_iff] using h2⟩
      simp [generate_filename, derive_key_amended, h1, h2, h3]

/-- C10: key derivation collides: the distinct rows
`("Best Award", http://x/a)` and `("Best: Award", http://x/b)` derive
the same filename; once the first row's file exists,
`initialize_queue` marks both rows scraped and a full run never hands
the second row to the extractor; and when the first row is scraped
during a run, the run-loop existence checks then shadow the second row
the same way (one extractor call in total). -/
theorem filename_collision_shadows_entry :
    generate_filename "Best Award" "http://x/a" = generate_filename "Best: Award" "http://x/b" ∧
    ("Best Award", "http://x/a") ≠ (("Best: Award", "http://x/b") : String × String) ∧
    initQueue [generate_filename "Best Award" "http://x/a"]
        [("Best Award", "http://x/a"), ("Best: Award", "http://x/b")] =
      [⟨"Best Award", "http://x/a", true⟩, ⟨"Best: Award", "http://x/b", true⟩] ∧
    (run (fun _ _ => ExtractResult.ok ⟨"X"⟩) 3 [generate_filename "Best Award" "http://x/a"]
        [("Best Award", "http://x/a"), ("Best: Award", "http://x/b")]).map
        (fun s => (s.attempted, s.calls)) = some ([], 0) ∧
    (run (fun _ _ => ExtractResult.ok ⟨"Best Award"⟩) 3 []
        [("Best Award", "http://x/a"), ("Best: Award", "http://x/b")]).map
        (fun s => (s.attempted, s.calls, s.processed)) =
      some ([("Best Award", "http://x/a")], 1, 1) := by
  refine ⟨by decide, by decide, by decide, by decide, by decide⟩

/-- C1: for every queue and every extractor behaviour the run loop
terminates (the natural exit is reached within the provided fuel),
invoking the extractor at most `N × max_retries` times, with every row
marked scraped at exit; and every iteration that processes an entry
strictly decreases the number of unscraped rows. -/
theorem run_terminates_bounded_calls (ext : Extractor) (mr : Nat)
    (q : List Entry) (store : List String) :
    (∃ s', runFrom ext mr q store = some s' ∧ s'.calls ≤ q.length * mr ∧
      ∀ x ∈ s'.queue, x.scraped = true) ∧
    (∀ s s' : RunState, runStep ext mr s = .continued s' →
      count_remaining s'.queue < count_remaining s.queue) := by
  constructor
  · have hlt : count_remaining (initState q store).queue < count_remaining q + 1 := by
      show count_remaining q < count_remaining q + 1
      omega
    have hsome := runLoop_isSome ext mr (count_remaining q + 1) (initState q store) hlt
    obtain ⟨s', hs'⟩ := Option.isSome_iff_exists.1 hsome
    refine ⟨s', hs', ?_, runLoop_final_allTrue ext mr _ _ _ hs'⟩
    have hle := runLoop_calls_le ext mr _ _ _ hs'
    calc s'.calls ≤ (initState q store).calls +
          count_remaining (initState q store).queue * mr := hle
      _ = count_remaining q * mr := by show 0 + count_remaining q * mr = _; omega
      _ ≤ q.length * mr := Nat.mul_le_mul_right mr (count_remaining_le_length q)
  · intro s s' h
    exact runStep_continued_decrease h

/-- C1 witness. -/
theorem run_terminates_bounded_calls_witness :
    (∃ s', runFrom (fun _ _ => ExtractResult.ok ⟨"A"⟩) 1 [⟨"A", "http://x/a", false⟩] [] = some s' ∧
      s'.calls ≤ [(⟨"A", "http://x/a", false⟩ : Entry)].length * 1 ∧
      ∀ x ∈ s'.queue, x.scraped = true) ∧
    count_remaining (⟨[⟨"A", "http://x/a", true⟩], ["A.json"], 1, 0, [], 1,
        [("A", "http://x/a")], 0⟩ : RunState).queue <
      count_remaining (initState [⟨"A", "http://x/a", false⟩] []).queue := by
  refine ⟨(run_terminates_bounded_calls (fun _ _ => ExtractResult.ok ⟨"A"⟩) 1
    [⟨"A", "http://x/a", false⟩] []).1, ?_⟩
  exact (run_terminates_bounded_calls (fun _ _ => ExtractResult.ok ⟨"A"⟩) 1
    [⟨"A", "http://x/a", false⟩] []).2 (initState [⟨"A", "http://x/a", false⟩] []) _ (by decide)

/-- C2: when its record file is absent and the extractor soft-fails on
every call (returns `None`, or a record lacking a non-empty `name`),
an entry is attempted exactly `max_retries` times, the store is left
untouched, the entry is marked scraped, counted failed (not
processed), appended to the skipped report with its last error reason,
and the loop continues. -/
theorem exhausted_retries_marks_skipped (ext : Extractor) (mr : Nat) (s : RunState)
    (q' : List Entry) (e : Entry)
    (hext : ∀ c v, ext c v = .noData ∨ ∃ rcd, ext c v = .ok rcd ∧ rcd.name = "")
    (hmr : 0 < mr)
    (hg : get_next_unscraped s.store s.queue = (q', some e)) :
    ∃ s', runStep ext mr s = .continued s' ∧
      s'.calls = s.calls + mr ∧
      s'.store = s.store ∧
      s'.processed = s.processed ∧
      s'.failed = s.failed + 1 ∧
      s'.skipped = s.skipped ++ [⟨e.name, e.url, "No data returned from scraper"⟩] ∧
      (∀ x ∈ s'.queue, x.url = e.url → x.scraped = true) := by
  have hns := (get_next_some_props hg).2.1
  obtain ⟨k, rfl⟩ : ∃ k, mr = k + 1 := ⟨mr - 1, by omega⟩
  have hr := retryLoop_all_soft ext e.name e.url hext k s.store s.calls none
  have hfields := processEntry_fields ext (k + 1) s q' e hns
  have hexh := processEntry_exhausted ext (k + 1) s q' e hns (by rw [hr])
  refine ⟨processEntry ext (k + 1) s q' e, runStep_eq_continued hg, ?_, ?_, hexh.1, hexh.2.1,
    ?_, ?_⟩
  · rw [hfields.2.1, hr]
  · rw [hfields.1, hr]
  · have h3 := hexh.2.2
    rw [hr] at h3
    simpa using h3
  · rw [processEntry_queue]
    exact update_queue_true_all_url q' e.url

/-- C2 witness. -/
theorem exhausted_retries_marks_skipped_witness :
    ∃ s', runStep (fun _ _ => ExtractResult.noData) 2
        (initState [⟨"A", "http://x/a", false⟩] []) = .continued s' ∧
      s'.calls = (initState [⟨"A", "http://x/a", false⟩] []).calls + 2 ∧
      s'.store = (initState [⟨"A", "http://x/a", false⟩] []).store ∧
      s'.processed = (initState [⟨"A", "http://x/a", false⟩] []).processed ∧
      s'.failed = (initState [⟨"A", "http://x/a", false⟩] []).failed + 1 ∧
      s'.skipped = (initState [⟨"A", "http://x/a", false⟩] []).skipped ++
        [⟨"A", "http://x/a", "No data returned from scraper"⟩] ∧
      (∀ x ∈ s'.queue, x.url = "http://x/a" → x.scraped = true) :=
  exhausted_retries_marks_skipped (fun _ _ => ExtractResult.noData) 2
    (initState [⟨"A", "http://x/a", false⟩] []) [⟨"A", "http://x/a", false⟩]
    ⟨"A", "http://x/a", false⟩ (fun _ _ => Or.inl rfl) (by decide) (by decide)

/-- C3: after `initialize_queue` every row's scraped flag equals the
existence of its record file; a full restarted run terminates, the
rows handed to the extractor are an order-preserving subsequence of
the rows whose file was absent, and no row whose file already existed
is ever handed to the extractor. -/
theorem resume_processes_only_unscraped (ext : Extractor) (mr : Nat)
    (store : List String) (rows : List (String × String)) :
    (∀ e ∈ initQueue store rows, e.scraped = is_scraped store e.name e.url) ∧
    ∃ s', run ext mr store rows = some s' ∧
      List.Sublist s'.attempted (rows.filter (fun r => !(is_scraped store r.1 r.2))) ∧
      (∀ p ∈ s'.attempted, is_scraped store p.1 p.2 = false) := by
  refine ⟨initQueue_flags store rows, ?_⟩
  have hlt : count_remaining (initState (initQueue store rows) store).queue <
      count_remaining (initQueue store rows) + 1 := by
    show count_remaining (initQueue store rows) < _
    omega
  have hsome := runLoop_isSome ext mr (count_remaining (initQueue store rows) + 1)
    (initState (initQueue store rows) store) hlt
  obtain ⟨s', hs'⟩ := Option.isSome_iff_exists.1 hsome
  obtain ⟨t, hta, hts, htst⟩ := runLoop_attempted ext mr _ _ _ hs'
  have hattempted : s'.attempted = t := by
    rw [hta]
    show ([] : List (String × String)) ++ t = t
    simp
  refine ⟨s', hs', ?_, ?_⟩
  · rw [hattempted, ← fFP_initQueue]
    exact hts
  · intro p hp
    rw [hattempted] at hp
    have hnm := htst p hp
    have : ¬ is_scraped store p.1 p.2 = true := fun htrue => hnm (is_scraped_iff_mem.1 htrue)
    simpa using this

/-- C3 witness. -/
theorem resume_processes_only_unscraped_witness :
    (∀ e ∈ initQueue ["A.json"] [("A", "http://x/a"), ("B", "http://x/b")],
      e.scraped = is_scraped ["A.json"] e.name e.url) ∧
    ∃ s', run (fun _ _ => ExtractResult.ok ⟨"B"⟩) 1 ["A.json"]
        [("A", "http://x/a"), ("B", "http://x/b")] = some s' ∧
      List.Sublist s'.attempted
        ([("A", "http://x/a"), ("B", "http://x/b")].filter
          (fun r => !(is_scraped ["A.json"] r.1 r.2))) ∧
      (∀ p ∈ s'.attempted, is_scraped ["A.json"] p.1 p.2 = false) :=
  resume_processes_only_unscraped (fun _ _ => ExtractResult.ok ⟨"B"⟩) 1 ["A.json"]
    [("A", "http://x/a"), ("B", "http://x/b")]

/-- C4: a queue row marked unscraped whose record file exists is healed
by next-item selection as soon as the scan reaches it — the selection
marks its URL scraped and moves on without returning it — and over a
whole run the row is never handed to the extractor and ends marked
scraped. -/
theorem desync_healed_without_extractor (ext : Extractor) (mr : Nat)
    (store : List String) (q1 q2 : List Entry) (e : Entry)
    (heF : e.scraped = false)
    (hex : is_scraped store e.name e.url = true)
    (hq1 : ∀ x ∈ q1, x.scraped = true) :
    (get_next_unscraped store (q1 ++ e :: q2) =
        getNextAux store (update_queue (q1 ++ e :: q2) e.url true) q2 ∧
      (∀ x ∈ update_queue (q1 ++ e :: q2) e.url true, x.url = e.url → x.scraped = true)) ∧
    ∃ s', runFrom ext mr (q1 ++ e :: q2) store = some s' ∧
      (e.name, e.url) ∉ s'.attempted ∧
      (∀ x ∈ s'.queue, x.url = e.url → x.scraped = true) := by
  constructor
  · constructor
    · unfold get_next_unscraped
      rw [getNextAux_skip_true store q1 hq1]
      simp only [getNextAux]
      rw [if_neg (by simp [heF]), if_pos hex]
    · exact update_queue_true_all_url _ _
  · have hlt : count_remaining (initState (q1 ++ e :: q2) store).queue <
        count_remaining (q1 ++ e :: q2) + 1 := by
      show count_remaining (q1 ++ e :: q2) < _
      omega
    have hsome := runLoop_isSome ext mr (count_remaining (q1 ++ e :: q2) + 1)
      (initState (q1 ++ e :: q2) store) hlt
    obtain ⟨s', hs'⟩ := Option.isSome_iff_exists.1 hsome
    refine ⟨s', hs', ?_, ?_⟩
    · obtain ⟨t, hta, _, htst⟩ := runLoop_attempted ext mr _ _ _ hs'
      rw [hta]
      show (e.name, e.url) ∉ ([] : List (String × String)) ++ t
      simp only [List.nil_append]
      intro hmem
      exact htst _ hmem (is_scraped_iff_mem.1 hex)
    · intro x hx _
      exact runLoop_final_allTrue ext mr _ _ _ hs' x hx

/-- C4 witness. -/
theorem desync_healed_without_extractor_witness :
    (get_next_unscraped ["A.json"] ([] ++ (⟨"A", "http://x/a", false⟩ : Entry) :: []) =
        getNextAux ["A.json"]
          (update_queue ([] ++ (⟨"A", "http://x/a", false⟩ : Entry) :: []) "http://x/a" true) [] ∧
      (∀ x ∈ update_queue ([] ++ (⟨"A", "http://x/a", false⟩ : Entry) :: []) "http://x/a" true,
        x.url = "http://x/a" → x.scraped = true)) ∧
    ∃ s', runFrom (fun _ _ => ExtractResult.noData) 3
        ([] ++ (⟨"A", "http://x/a", false⟩ : Entry) :: []) ["A.json"] = some s' ∧
      ("A", "http://x/a") ∉ s'.attempted ∧
      (∀ x ∈ s'.queue, x.url = "http://x/a" → x.scraped = true) :=
  desync_healed_without_extractor (fun _ _ => ExtractResult.noData) 3 ["A.json"] [] []
    ⟨"A", "http://x/a", false⟩ rfl (by decide) (by simp)

/-- C5: an attempt succeeds exactly when the extractor returns a record
with a non-empty `name`.  On a first-attempt success the record is
persisted under the filename derived from the entry's name and url
(and the re-stat verification finds it), the queue row is marked
scraped, the processed count is incremented, exactly one extractor
invocation is made and no further attempt happens; any other result
consumes the attempt and the retry loop continues with the recorded
reason. -/
theorem success_iff_named_record (ext : Extractor) (mr : Nat) (s : RunState)
    (q' : List Entry) (e : Entry) (res : ExtractResult)
    (hg : get_next_unscraped s.store s.queue = (q', some e))
    (hres : ext s.calls e.url = res) :
    ((∃ rcd, res = .ok rcd ∧ rcd.name ≠ "") → 0 < mr →
      ∃ s', runStep ext mr s = .continued s' ∧
        s'.store = generate_filename e.name e.url :: s.store ∧
        generate_filename e.name e.url ∈ s'.store ∧
        (∀ x ∈ s'.queue, x.url = e.url → x.scraped = true) ∧
        s'.processed = s.processed + 1 ∧ s'.calls = s.calls + 1 ∧
        s'.failed = s.failed ∧ s'.skipped = s.skipped) ∧
    ((∀ rcd, res = .ok rcd → rcd.name = "") →
      ∀ (k : Nat) (le : Option String),
        retryLoop ext e.name e.url (k + 1) s.store s.calls le =
          retryLoop ext e.name e.url k s.store (s.calls + 1)
            (some (match ext s.calls e.url with
                   | .err m => m
                   | _ => "No data returned from scraper"))) := by
  have hns := (get_next_some_props hg).2.1
  constructor
  · rintro ⟨rcd, rfl, hname⟩ hmr
    obtain ⟨k, rfl⟩ : ∃ k, mr = k + 1 := ⟨mr - 1, by omega⟩
    have hr := retryLoop_first_ok ext e.name e.url k s.store s.calls none hres hname
    have hfields := processEntry_fields ext (k + 1) s q' e hns
    have hsucc := processEntry_success ext (k + 1) s q' e hns (by rw [hr])
    refine ⟨processEntry ext (k + 1) s q' e, runStep_eq_continued hg, ?_, ?_, ?_,
      hsucc.1, ?_, hsucc.2.1, hsucc.2.2⟩
    · rw [hfields.1, hr]
    · rw [hfields.1, hr]
      exact List.mem_cons_self _ _
    · rw [processEntry_queue]
      exact update_queue_true_all_url q' e.url
    · rw [hfields.2.1, hr]
  · intro hsoft k le
    exact retryLoop_first_fail ext e.name e.url k s.store s.calls le
      (fun rcd hrc => hsoft rcd (hres.symm.trans hrc))

/-- C5 witness. -/
theorem success_iff_named_record_witness :
    ((∃ rcd, ExtractResult.ok (⟨"A"⟩ : Record) = .ok rcd ∧ rcd.name ≠ "") → 0 < 3 →
      ∃ s', runStep (fun _ _ => ExtractResult.ok ⟨"A"⟩) 3
          (initState [⟨"A", "http://x/a", false⟩] []) = .continued s' ∧
        s'.store = generate_filename "A" "http://x/a" ::
          (initState [⟨"A", "http://x/a", false⟩] []).store ∧
        generate_filename "A" "http://x/a" ∈ s'.store ∧
        (∀ x ∈ s'.queue, x.url = "http://x/a" → x.scraped = true) ∧
        s'.processed = (initState [⟨"A", "http://x/a", false⟩] []).processed + 1 ∧
        s'.calls = (initState [⟨"A", "http://x/a", false⟩] []).calls + 1 ∧
        s'.failed = (initState [⟨"A", "http://x/a", false⟩] []).failed ∧
        s'.skipped = (initState [⟨"A", "http://x/a", false⟩] []).skipped) ∧
    ((∀ rcd, ExtractResult.ok (⟨"A"⟩ : Record) = .ok rcd → rcd.name = "") →
      ∀ (k : Nat) (le : Option String),
        retryLoop (fun _ _ => ExtractResult.ok ⟨"A"⟩) "A" "http://x/a" (k + 1) [] 0 le =
          retryLoop (fun _ _ => ExtractResult.ok ⟨"A"⟩) "A" "http://x/a" k [] (0 + 1)
            (some (match ExtractResult.ok (⟨"A"⟩ : Record) with
                   | .err m => m
                   | _ => "No data returned from scraper"))) :=
  success_iff_named_record (fun _ _ => ExtractResult.ok ⟨"A"⟩) 3
    (initState [⟨"A", "http://x/a", false⟩] []) [⟨"A", "http://x/a", false⟩]
    ⟨"A", "http://x/a", false⟩ (ExtractResult.ok ⟨"A"⟩) (by decide) rfl

/-- C6: a raised extractor exception is caught and treated as one more
failed attempt: it consumes exactly one of the `max_retries` attempts,
its message is recorded as the last error, and the loop goes on; and
`run` on such an extractor still returns normally (the exception never
reaches `run`'s caller). -/
theorem extractor_exception_soft_failure (ext : Extractor) (n u : String)
    (k : Nat) (store : List String) (calls : Nat) (le : Option String) (m : String)
    (h : ext calls u = .err m) :
    retryLoop ext n u (k + 1) store calls le =
      retryLoop ext n u k store (calls + 1) (some m) ∧
    ∀ (mr : Nat) (q : List Entry) (st : List String), (runFrom ext mr q st).isSome := by
  refine ⟨retryLoop_err_step ext n u k store calls le h, ?_⟩
  intro mr q st
  refine runLoop_isSome ext mr (count_remaining q + 1) (initState q st) ?_
  show count_remaining q < count_remaining q + 1
  omega

/-- C6 witness. -/
theorem extractor_exception_soft_failure_witness :
    retryLoop (fun _ _ => ExtractResult.err "boom") "A" "http://x/a" (0 + 1) [] 0 none =
      retryLoop (fun _ _ => ExtractResult.err "boom") "A" "http://x/a" 0 [] (0 + 1)
        (some "boom") ∧
    ∀ (mr : Nat) (q : List Entry) (st : List String),
      (runFrom (fun _ _ => ExtractResult.err "boom") mr q st).isSome :=
  extractor_exception_soft_failure (fun _ _ => ExtractResult.err "boom") "A" "http://x/a"
    0 [] 0 none "boom" rfl

/-- C7 counterexample: an entry that exhausted its retries is marked
`scraped=true` with no record file (`DONE_SKIPPED`), and re-running
`initialize_queue` on restart resets exactly such an entry to
`scraped=false` — the claim's "re-running initialize_queue never sets
the flag back to false" fails. -/
theorem done_skipped_not_terminal_cex :
    runFrom (fun _ _ => ExtractResult.noData) 3 [⟨"A", "http://x/a", false⟩] [] =
      some ⟨[⟨"A", "http://x/a", true⟩], [], 0, 1,
        [⟨"A", "http://x/a", "No data returned from scraper"⟩], 3, [("A", "http://x/a")], 0⟩ ∧
    initQueue [] [("A", "http://x/a")] = [⟨"A", "http://x/a", false⟩] := by
  refine ⟨by decide, by decide⟩

/-- C7 (amended): within a run the orchestrator never resets a scraped
flag — every queue rewrite only raises flags, so a URL whose rows are
all marked stays marked through the whole loop; and re-running
`initialize_queue` preserves `scraped=true` for every row whose record
file exists (`DONE_SUCCESS`).  Rows marked scraped with no file
(`DONE_SKIPPED`) are, however, reset to false by re-running
`initialize_queue`. -/
theorem scraped_flag_monotone_amended :
    (∀ (ext : Extractor) (mr fuel : Nat) (s s' : RunState) (u : String),
      runLoop ext mr fuel s = some s' →
      (∀ x ∈ s.queue, x.url = u → x.scraped = true) →
      (∀ x ∈ s'.queue, x.url = u → x.scraped = true)) ∧
    (∀ (store : List String) (rows : List (String × String)) (n u : String),
      (n, u) ∈ rows → is_scraped store n u = true →
      (⟨n, u, true⟩ : Entry) ∈ initQueue store rows) := by
  constructor
  · intro ext mr fuel s s' u h hAt
    exact runLoop_allTrueAt_mono ext mr u fuel s s' h hAt
  · intro store rows n u hmem hsc
    have h : (⟨n, u, is_scraped store n u⟩ : Entry) ∈ initQueue store rows :=
      List.mem_map.2 ⟨(n, u), hmem, rfl⟩
    rwa [hsc] at h

/-- C7 witness. -/
theorem scraped_flag_monotone_amended_witness :
    (∀ x ∈ ((⟨[⟨"A", "http://x/a", true⟩], [], 0, 0, [], 0, [], 0⟩ : RunState)).queue,
        x.url = "http://x/a" → x.scraped = true) ∧
    (⟨"A", "http://x/a", true⟩ : Entry) ∈ initQueue ["A.json"] [("A", "http://x/a")] := by
  constructor
  · refine scraped_flag_monotone_amended.1 (fun _ _ => ExtractResult.noData) 1 1
      (initState [⟨"A", "http://x/a", true⟩] []) _ "http://x/a" (by decide) (by decide)
  · exact scraped_flag_monotone_amended.2 ["A.json"] [("A", "http://x/a")] "A" "http://x/a"
      (by decide) (by decide)

/-- C8 counterexample: with a duplicated URL the inter-item delay can
be skipped while unscraped entries remain.  Queue `A,B` share a URL
(`A`'s file exists, `B`'s does not) and `C` is still unscraped;
selecting `B` first heals the shared URL (remaining drops to 1), so
after `B` is scraped successfully no delay is taken (`delays` stays 0)
even though `C` is still unscraped — refuting "omitted only when the
queue has just become empty". -/
theorem delay_skipped_nonempty_cex :
    runStep (fun _ _ => ExtractResult.ok ⟨"B"⟩) 1
        (initState [⟨"A", "http://x/u", false⟩, ⟨"B", "http://x/u", false⟩,
          ⟨"C", "http://x/v", false⟩] ["A.json"]) =
      .continued ⟨[⟨"A", "http://x/u", true⟩, ⟨"B", "http://x/u", true⟩,
          ⟨"C", "http://x/v", false⟩],
        ["B.json", "A.json"], 1, 0, [], 1, [("B", "http://x/u")], 0⟩ ∧
    count_remaining [⟨"A", "http://x/u", true⟩, ⟨"B", "http://x/u", true⟩,
        ⟨"C", "http://x/v", false⟩] = 1 := by
  refine ⟨by decide, by decide⟩

/-- C8 (amended): under the data model's URL-uniqueness invariant, each
iteration that processes an entry — whatever its outcome — takes the
inter-item delay exactly when unscraped entries remain afterwards,
i.e. the delay is omitted precisely when the queue has just become
empty.  (With duplicated URLs the delay can also be omitted earlier,
as the counterexample shows.) -/
theorem delay_iff_queue_nonempty_amended (ext : Extractor) (mr : Nat) (s : RunState)
    (q' : List Entry) (e : Entry)
    (hnd : (s.queue.map (fun x : Entry => x.url)).Nodup)
    (hg : get_next_unscraped s.store s.queue = (q', some e)) :
    ∃ s', runStep ext mr s = .continued s' ∧
      (s'.delays = s.delays + 1 ↔ count_remaining s'.queue ≠ 0) := by
  have hns := (get_next_some_props hg).2.1
  have hcount := get_next_nodup_count hnd hg
  refine ⟨processEntry ext mr s q' e, runStep_eq_continued hg, ?_⟩
  rw [processEntry_queue, (processEntry_fields ext mr s q' e hns).2.2.2]
  by_cases h3 : count_remaining q' > 1
  · rw [if_pos h3]; omega
  · rw [if_neg h3]; omega

/-- C8 witness. -/
theorem delay_iff_queue_nonempty_amended_witness :
    ∃ s', runStep (fun _ _ => ExtractResult.ok ⟨"A"⟩) 1
        (initState [⟨"A", "http://x/a", false⟩, ⟨"B", "http://x/b", false⟩] []) =
      .continued s' ∧
      (s'.delays = (initState [⟨"A", "http://x/a", false⟩, ⟨"B", "http://x/b", false⟩] []).delays
          + 1 ↔ count_remaining s'.queue ≠ 0) :=
  delay_iff_queue_nonempty_amended (fun _ _ => ExtractResult.ok ⟨"A"⟩) 1
    (initState [⟨"A", "http://x/a", false⟩, ⟨"B", "http://x/b", false⟩] [])
    [⟨"A", "http://x/a", false⟩, ⟨"B", "http://x/b", false⟩] ⟨"A", "http://x/a", false⟩
    (by decide) (by decide)
